import Mathlib

/-!
Verification of the genetic scheduling engine (`src/cxx/src/Scheduler.cpp`).

The scheduler evolves a population of candidate schedules.  A candidate is a
grid of `slots × rooms` cells, each holding an identifier drawn from
`[0, slots*rooms)`; identifiers `≥ nmini` are "empty" placeholders.  This file
embeds the engine's operations (initialization, the repair pass, roulette
selection, crossover, mutation, ranking, and the per-generation driver step)
as executable Lean functions and proves or refutes the specified properties.

Conventions of the embedding:
* Machine `unsigned` values are modelled as `Nat`; the C++ expression
  `unsigned(-1)` is the concrete value `2 ^ 32 - 1`.
* `double` ratings and weights are modelled as `ℚ`.
* Randomness (`pool_.get_state()`, `gen.drand()`, `gen.rand(n)`,
  `std::shuffle`) is modelled by explicit oracle parameters: a shuffled list,
  draw streams, cut points, and mutation decisions.
* Unbounded `while` loops are modelled with explicit fuel returning `Option`;
  `none` means the loop did not terminate within the given fuel.
* External collaborators whose code is not under `src/`
  (`Minisymposia::breaks_ordering`, `Minisymposium::higher_priority`,
  `Minisymposia::rate_schedule`, `genetic::find`) are modelled from the spec,
  as noted on each definition.
-/

namespace GenSched

/-- Unique existence over a finite type is decidable (used to evaluate the
permutation invariant on concrete grids). -/
instance {α : Type} [Fintype α] [DecidableEq α] (p : α → Prop)
    [DecidablePred p] : Decidable (∃! a, p a) :=
  inferInstanceAs (Decidable (∃ a, p a ∧ ∀ b, p b → b = a))

/-- A cell position in one candidate grid: (timeslot, room). -/
abbrev Pos (s m : Nat) := Fin s × Fin m

/-- One candidate grid: each (timeslot, room) cell holds an identifier.
In the source this is the slice `current_schedules_(sc, ·, ·)`. -/
abbrev Grid (s m : Nat) := Pos s m → Nat

/-- The central invariant (spec §3): every identifier in `[0, slots*rooms)`
appears in the grid exactly once — a bijection between cells and
identifiers. -/
def isPermGrid {s m : Nat} (g : Grid s m) : Prop :=
  ∀ v, v < s * m → ∃! p : Pos s m, g p = v

instance {s m : Nat} (g : Grid s m) : Decidable (isPermGrid g) :=
  inferInstanceAs (Decidable (∀ v, v < s * m → ∃! p : Pos s m, g p = v))

/-- Technical reformulation of the invariant: the grid is injective and all
its values are below `slots*rooms`. -/
def injB {s m : Nat} (g : Grid s m) : Prop :=
  Function.Injective g ∧ ∀ p, g p < s * m

/-- Swap the contents of two cells, as the source's three-line
`temp / = / =` swap does. -/
def swapCells {s m : Nat} (g : Grid s m) (p q : Pos s m) : Grid s m :=
  fun x => if x = p then g q else if x = q then g p else g x

/-- All cell positions in the iteration order of the source's nested
`for(sl) for(r)` loops. -/
def allCells (s m : Nat) : List (Pos s m) :=
  (List.finRange s).flatMap (fun sl => (List.finRange m).map (fun r => (sl, r)))

/-! ### Initializer (`Scheduler::initialize_schedules`, lines 54–84)

The source shuffles the list `0, …, nrooms*ntimeslots - 1` and writes it
into the grid row-major (`ind` increments with the room index innermost).
The shuffled list is the oracle parameter `numbers`. -/

/-- One candidate of `initialize_schedules`: write the (shuffled) list
`numbers` into the grid, slot-major with the room index innermost. -/
def initialize_schedule (s m : Nat) (numbers : List Nat) : Grid s m :=
  fun p => numbers.getD (p.1.val * m + p.2.val) 0

/-! ### Repair pass (`Scheduler::fix_schedules`, lines 106–144) -/

/-- The inner `sl2/r2` loops' cells for a fixed `sl1`: all cells in strictly
later timeslots, in loop order. -/
def laterCells {s m : Nat} (sl1 : Fin s) : List (Pos s m) :=
  ((List.finRange s).filter (fun sl2 => sl1 < sl2)).flatMap
    (fun sl2 => (List.finRange m).map (fun r2 => (sl2, r2)))

/-- Body of the ordering pass for one outer cell `p1`: skip if `p1` holds a
placeholder, otherwise sweep all later cells, swapping whenever the ordering
collaborator reports a violation.  `b` is `Minisymposia::breaks_ordering`. -/
def fixOrderingAt {s m : Nat} (nmini : Nat) (b : Nat → Nat → Bool)
    (g : Grid s m) (p1 : Pos s m) : Grid s m :=
  if nmini ≤ g p1 then g
  else
    (laterCells p1.1).foldl
      (fun g' p2 =>
        if nmini ≤ g' p2 then g'
        else if b (g' p1) (g' p2) then swapCells g' p1 p2 else g')
      g

/-- The ordering pass: the outer `sl1/r1` loops. -/
def fixOrdering {s m : Nat} (nmini : Nat) (b : Nat → Nat → Bool)
    (g : Grid s m) : Grid s m :=
  (allCells s m).foldl (fixOrderingAt nmini b) g

/-- One comparison/swap of the priority bubble pass at columns `j`, `j'`
(`j' = j+1`) of slot `sl`.  `hp` is `Minisymposium::higher_priority`,
modelled from the spec (the collaborator's code is not under `src/`). -/
def priorityStep {s m : Nat} (nmini : Nat) (hp : Nat → Nat → Bool)
    (sl : Fin s) (g : Grid s m) (j j' : Fin m) : Grid s m :=
  if nmini ≤ g (sl, j') then g
  else if nmini ≤ g (sl, j) ∨ hp (g (sl, j')) (g (sl, j)) = true then
    swapCells g (sl, j) (sl, j')
  else g

/-- Body of the priority pass's inner `j` loop for outer index `iv`:
the source accesses `(sc, sl, j)` and `(sc, sl, j+1)` for `j < nrooms-iv`. -/
def priorityInner {s m : Nat} (nmini : Nat) (hp : Nat → Nat → Bool)
    (sl : Fin s) (iv : Nat) (g : Grid s m) (j : Fin m) : Grid s m :=
  if h : j.val < m - iv ∧ j.val + 1 < m then
    priorityStep nmini hp sl g j ⟨j.val + 1, h.2⟩
  else g

/-- The priority pass: for each slot, the bubble sort
`for(i=1; i<nrooms; i++) for(j=0; j<nrooms-i; j++)`. -/
def fixPriority {s m : Nat} (nmini : Nat) (hp : Nat → Nat → Bool)
    (g : Grid s m) : Grid s m :=
  (List.finRange s).foldl
    (fun g0 sl =>
      (List.finRange m).foldl
        (fun g1 i =>
          if 1 ≤ i.val then
            (List.finRange m).foldl (priorityInner nmini hp sl i.val) g1
          else g1)
        g0)
    g

/-- `Scheduler::fix_schedules` for one candidate: the ordering pass followed
by the priority pass. -/
def fix_schedules {s m : Nat} (nmini : Nat) (b hp : Nat → Nat → Bool)
    (g : Grid s m) : Grid s m :=
  fixPriority nmini hp (fixOrdering nmini b g)

/-! ### Selection (`Scheduler::compute_weights`, lines 146–172, and
`Scheduler::get_parent`, lines 278–294) -/

/-- `Scheduler::compute_weights`: subtract the worst rating from each rating,
sum the results.  The source's final "Normalize the weights" kernel evaluates
`weights_[i] / weight_sum;` and discards the value, so the stored weights are
left unnormalized; the discarded computation is kept here as an unused
binding. -/
def compute_weights (ratings : List ℚ) : List ℚ :=
  let worst_score := ratings.foldl min (ratings.headD 0)
  let weights := ratings.map (fun x => x - worst_score)
  let weight_sum := weights.sum
  let _discarded := weights.map (fun w => w / weight_sum)
  weights

/-- The accumulation loop of `get_parent`: `sum += weights_[sc];
if(r < sum) { parent = sc; break; }`. -/
def getParentAux (r : ℚ) : List ℚ → ℚ → Nat → Nat
  | [], _, _ => 2 ^ 32 - 1
  | w :: ws, sum, sc =>
    if r < sum + w then sc else getParentAux r ws (sum + w) (sc + 1)

/-- `Scheduler::get_parent` with the random draw `r` made explicit.  When no
prefix sum exceeds `r` the function returns `unsigned(-1)`, i.e.
`2 ^ 32 - 1`. -/
def get_parent (weights : List ℚ) (r : ℚ) : Nat :=
  getParentAux r weights 0 0

/-- The `while(pid2 == pid1) pid2 = get_parent();` redraw loop of
`breed_population`, with the draw stream `draws` (indexed from `k`) and
explicit fuel; `none` means the loop did not exit within `fuel` redraws. -/
def redrawLoop (weights : List ℚ) (draws : Nat → ℚ) (pid1 k : Nat) :
    Nat → Option Nat
  | 0 => none
  | fuel + 1 =>
    let pid2 := get_parent weights (draws k)
    if pid2 = pid1 then redrawLoop weights draws pid1 (k + 1) fuel
    else some pid2

/-! ### Ranking (`Scheduler::sort_on_ratings`, lines 324–344)

The source sorts the parallel arrays `best_indices_` (initialized to
`0, …, n-1`) and a host copy of `ratings_` with a bubble sort, swapping both
arrays in tandem; the tandem pair of arrays is embedded as one list of
`(index, rating)` pairs.  The function returns `h_ratings[n-1]`. -/

/-- Swap the adjacent entries `j` and `j+1` of a list. -/
def swapAdj (st : List (Nat × ℚ)) (j : Nat) : List (Nat × ℚ) :=
  (st.set j (st.getD (j + 1) (0, 0))).set (j + 1) (st.getD j (0, 0))

/-- One comparison of the bubble sort:
`if(h_ratings[j] < h_ratings[j+1]) swap both arrays at j, j+1`. -/
def bubbleStep (st : List (Nat × ℚ)) (j : Nat) : List (Nat × ℚ) :=
  if (st.getD j (0, 0)).2 < (st.getD (j + 1) (0, 0)).2 then swapAdj st j
  else st

/-- The inner sweep `for(j=0; j<L; j++)` of the bubble sort. -/
def bubblePass (L : Nat) (st : List (Nat × ℚ)) : List (Nat × ℚ) :=
  (List.range L).foldl bubbleStep st

/-- `Scheduler::sort_on_ratings`: returns the sorted `(index, rating)` pairs
together with the value the source returns, `h_ratings[n-1]`. -/
def sort_on_ratings (n : Nat) (ratings : List ℚ) :
    List (Nat × ℚ) × ℚ :=
  let st0 := (List.range n).zip ratings
  let st :=
    (List.range n).foldl (fun st i => bubblePass (n - i - 1) st) st0
  (st, (st.map Prod.snd).getD (n - 1) 0)

/-! ### Crossover (`Scheduler::breed`, lines 198–232)

`breed` copies the columns `[0, end_index)` of the *last* grid dimension
(the source computes `nslots = current_schedules_.extent(2)`, which is the
room extent) from the mom, then fills the remaining cells from the dad,
chasing duplicates through the copied region. -/

/-- Modelled from the spec: `genetic::find` (`Utility.hpp`, not under
`src/`).  Spec §4.5: "if that value already occurs within the already-copied
region of parent A, look up the cell position in parent A where that
duplicate value resides".  Returns the position of `v` within the copied
region (columns `< e`) of `mom`, if any. -/
def findInRegion {s m : Nat} (mom : Grid s m) (e : Nat) (v : Nat) :
    Option (Pos s m) :=
  (allCells s m).find? (fun p => decide (p.2.val < e) && (mom p == v))

/-- One step of the duplicate chase: look up the dad's value at `p` in the
copied region of the mom. -/
def chaseStep {s m : Nat} (mom dad : Grid s m) (e : Nat) (p : Pos s m) :
    Option (Pos s m) :=
  findInRegion mom e (dad p)

/-- The `while(find(mom_genes, dad(...), new_index))` loop with explicit
fuel: returns the final position whose dad-value is not in the copied
region, or `none` if the fuel runs out. -/
def chase {s m : Nat} (mom dad : Grid s m) (e : Nat) :
    Nat → Pos s m → Option (Pos s m)
  | 0, _ => none
  | fuel + 1, p =>
    match chaseStep mom dad e p with
    | none => some p
    | some q => chase mom dad e fuel q

/-- Iterated successful chase steps: `chainN n p` is the position reached
after `n` successful `chaseStep`s from `p` (`none` if a step fails
earlier). -/
def chainN {s m : Nat} (mom dad : Grid s m) (e : Nat) :
    Nat → Pos s m → Option (Pos s m)
  | 0, p => some p
  | n + 1, p => (chaseStep mom dad e p).bind (chainN mom dad e n)

/-- `Scheduler::breed` for one child: cells in columns `< e` come from the
mom; every other cell is the dad's value at the end of the duplicate chase.
Fuel `s*m + 1` suffices whenever the parents are permutation grids (proved
below); the `none` branch is unreachable in that case. -/
def breed {s m : Nat} (mom dad : Grid s m) (e : Nat) : Grid s m :=
  fun p =>
    if p.2.val < e then mom p
    else
      match chase mom dad e (s * m + 1) p with
      | some q => dad q
      | none => dad p

/-! ### Mutation (`Scheduler::mutate_population`, lines 234–257) -/

/-- Mutation of one cell: if the oracle `dec` fires (modelling
`gen.drand() < mutationRate`), swap the cell with the cell of the same room
in the slot chosen by `pick` (modelling the `while(sl2 == sl)` redraw). -/
def mutateCell {s m : Nat} (dec : Pos s m → Bool) (pick : Pos s m → Fin s)
    (g : Grid s m) (p : Pos s m) : Grid s m :=
  if dec p then swapCells g p (pick p, p.2) else g

/-- Mutation of one candidate grid: the `for(sl) for(r)` loops. -/
def mutate_schedule {s m : Nat} (dec : Pos s m → Bool)
    (pick : Pos s m → Fin s) (g : Grid s m) : Grid s m :=
  (allCells s m).foldl (mutateCell dec pick) g

/-! ### Population level -/

/-- A population of `n` candidate grids. -/
abbrev Pop (n s m : Nat) := Fin n → Grid s m

/-- The ratings array: `ratings_[i] = rate(current_schedules_(i, ·, ·))`.
The scoring collaborator `rate` (`Minisymposia::rate_schedule`) is modelled
from the spec as an arbitrary deterministic scoring function (its code is
not under `src/`). -/
def popRatings {n s m : Nat} (rate : Grid s m → ℚ) (pop : Pop n s m) :
    List ℚ :=
  (List.finRange n).map (fun i => rate (pop i))

/-- The maximum of a rating list (`0` for an empty population); the "best
rating of the population" of spec §8. -/
def maxQ : List ℚ → ℚ
  | [] => 0
  | r :: rs => rs.foldl max r

/-- The best (maximum) rating in a population. -/
def bestRating {n s m : Nat} (rate : Grid s m → ℚ) (pop : Pop n s m) : ℚ :=
  maxQ (popRatings rate pop)

/-- One non-elite child of `breed_population`: `pid1 = get_parent()`, then
the redraw loop for `pid2`, then `breed(pid1, pid2, i)`.  An out-of-range
parent index would be an out-of-bounds read in the source, hence `none`. -/
def breed_child {n s m : Nat} (weights : List ℚ) (draws : Nat → ℚ)
    (fuel cut : Nat) (cur : Pop n s m) : Option (Grid s m) :=
  let pid1 := get_parent weights (draws 0)
  match redrawLoop weights (fun k => draws (k + 1)) pid1 0 fuel with
  | none => none
  | some pid2 =>
    if h : pid1 < n ∧ pid2 < n then
      some (breed (cur ⟨pid1, h.1⟩) (cur ⟨pid2, h.2⟩) cut)
    else none

/-- `Scheduler::breed_population`: copy the candidates at
`best_indices_[0..eliteSize)` into the leading slots of the next generation,
then breed the remaining slots (`RangePolicy(eliteSize, nschedules())`).
`bi` is the `best_indices_` array; `draws` and `cuts` are the per-child
random oracles.  The whole step succeeds only if every child's redraw loop
exits and both its parent indices are in range; under that guard the
`getD` default below is never used. -/
def breed_population {n s m : Nat} (eliteSize : Nat) (weights : List ℚ)
    (bi : List Nat) (draws : Fin n → Nat → ℚ) (cuts : Fin n → Nat)
    (fuel : Nat) (cur : Pop n s m) : Option (Pop n s m) :=
  if ((List.finRange n).drop eliteSize).all
      (fun i => (breed_child weights (draws i) fuel (cuts i) cur).isSome) then
    some (fun i =>
      if i.val < eliteSize then
        cur ⟨bi.getD i.val 0 % n, Nat.mod_lt _ i.pos⟩
      else
        (breed_child weights (draws i) fuel (cuts i) cur).getD (fun _ => 0))
  else none

/-- `Scheduler::mutate_population`: candidate 0 is skipped
(`if (sc == 0) return;`); every other candidate has its cells mutated. -/
def mutate_population {n s m : Nat} (mdec : Fin n → Pos s m → Bool)
    (mpick : Fin n → Pos s m → Fin s) (pop : Pop n s m) : Pop n s m :=
  fun sc =>
    if sc.val = 0 then pop sc
    else mutate_schedule (mdec sc) (mpick sc) (pop sc)

/-- One generation of the driver loop `run_genetic` after the ratings are
computed: `compute_weights(); breed_population(eliteSize);
mutate_population(rate); swap; fix_schedules();`.  Returns the population
that is current at the start of the next generation. -/
def generation_step {n s m : Nat} (nmini : Nat) (b hp : Nat → Nat → Bool)
    (rate : Grid s m → ℚ) (eliteSize : Nat) (draws : Fin n → Nat → ℚ)
    (cuts : Fin n → Nat) (fuel : Nat) (mdec : Fin n → Pos s m → Bool)
    (mpick : Fin n → Pos s m → Fin s) (cur : Pop n s m) :
    Option (Pop n s m) :=
  (breed_population eliteSize (compute_weights (popRatings rate cur))
      ((sort_on_ratings n (popRatings rate cur)).1.map Prod.fst)
      draws cuts fuel cur).map
    (fun next i => fix_schedules nmini b hp (mutate_population mdec mpick next i))

/-- The state of `sort_on_ratings` after the first `i` outer iterations. -/
def sortFold (n : Nat) (ratings : List ℚ) (i : Nat) : List (Nat × ℚ) :=
  (List.range i).foldl (fun st k => bubblePass (n - k - 1) st)
    ((List.range n).zip ratings)

/-- The population slot that the ranking puts first (the champion's index
into the current generation). -/
def champion_index {n s m : Nat} (hn : 0 < n) (rate : Grid s m → ℚ)
    (cur : Pop n s m) : Fin n :=
  ⟨((sort_on_ratings n (popRatings rate cur)).1.map Prod.fst).getD 0 0 % n,
    Nat.mod_lt _ hn⟩

/-! ### Concrete instances used to evaluate the embedding

Small grids, populations, and oracles on which every theorem below can be
checked by computation. -/

/-- An ordering predicate that never reports a violation. -/
def bfalse : Nat → Nat → Bool := fun _ _ => false

/-- An asymmetric ordering predicate forming a 3-cycle:
`0` breaks ordering before `1`, `1` before `2`, and `2` before `0`. -/
def bcyc : Nat → Nat → Bool := fun x y =>
  (x == 0 && y == 1) || (x == 1 && y == 2) || (x == 2 && y == 0)

/-- The 3-slot, 1-room grid holding `0, 1, 2` down its single column. -/
def g012 : Grid 3 1 := fun p => p.1.val

/-- The 3-slot, 1-room grid holding `2, 1, 0`. -/
def g210 : Grid 3 1 := fun p => [2, 1, 0].getD p.1.val 0

/-- The 3-slot, 1-room grid holding `0, 2, 1`. -/
def g021 : Grid 3 1 := fun p => [0, 2, 1].getD p.1.val 0

/-- The identity 2×2 grid (identifiers in row-major order). -/
def gW22 : Grid 2 2 := fun p => p.1.val * 2 + p.2.val

/-- The reversed 2×2 grid. -/
def gRev22 : Grid 2 2 := fun p => 3 - (p.1.val * 2 + p.2.val)

/-- A mutation-decision oracle that fires on every cell. -/
def decAll : Pos 2 2 → Bool := fun _ => true

/-- A slot-pick oracle returning the other slot (2 slots). -/
def pickNext : Pos 2 2 → Fin 2 := fun p => ⟨1 - p.1.val, by omega⟩

/-- A position outside the copied region for cut `1` on the 2×2 grid. -/
def wpos : Pos 2 2 := (0, 1)

/-- The 2-slot, 3-room grid in row-major order. -/
def mom23 : Grid 2 3 := fun p => p.1.val * 3 + p.2.val

/-- The reversed 2-slot, 3-room grid. -/
def dad23 : Grid 2 3 := fun p => 5 - (p.1.val * 3 + p.2.val)

/-- A constant draw stream with value `1/3 ∈ [0, 1)`. -/
def constDraws : Nat → ℚ := fun _ => 1 / 3

/-- The 2-slot, 1-room grid `0, 1`. -/
def gA21 : Grid 2 1 := fun p => p.1.val

/-- The 2-slot, 1-room grid `1, 0`. -/
def gB21 : Grid 2 1 := fun p => 1 - p.1.val

/-- A 2-candidate population: candidate 0 holds `gA21`, candidate 1 holds
`gB21`. -/
def cur7 : Pop 2 2 1 := fun i => if i.val = 0 then gA21 else gB21

/-- A scoring oracle rating `gB21` best. -/
def rate7 : Grid 2 1 → ℚ := fun g => if g = gB21 then 1 else 0

/-- A trivial draw-stream oracle for a 2-candidate population. -/
def draws7 : Fin 2 → Nat → ℚ := fun _ _ => 0

/-- A trivial cut oracle for a 2-candidate population. -/
def cuts7 : Fin 2 → Nat := fun _ => 0

/-- A mutation oracle firing exactly on cell (0,0) of candidate 1. -/
def mdec7 : Fin 2 → Pos 2 1 → Bool := fun sc p => sc.val == 1 && p.1.val == 0

/-- A slot-pick oracle returning the other slot. -/
def mpick7 : Fin 2 → Pos 2 1 → Fin 2 := fun _ p => ⟨1 - p.1.val, by omega⟩

/-- The population produced by breeding from `cur7` with elite size 2. -/
def next7 : Pop 2 2 1 := fun i => if i.val = 0 then gB21 else gA21

/-- A one-candidate population whose only member is the repaired initial
grid `fix(init [0,1,2]) = [2,1,0]` under the cyclic ordering predicate. -/
def cur6 : Pop 1 3 1 := fun _ =>
  fix_schedules 3 bcyc bfalse (initialize_schedule 3 1 [0, 1, 2])

/-- The population after one generation step from `cur6`. -/
def pop6 : Pop 1 3 1 := fun _ => g021

/-- A scoring oracle under which the repaired grid `[2,1,0]` rates `2` and
its re-repair `[0,2,1]` rates `1`. -/
def rate6 : Grid 3 1 → ℚ := fun g =>
  if g = g210 then 2 else if g = g021 then 1 else 0

/-- A trivial draw-stream oracle for a 1-candidate population. -/
def draws6 : Fin 1 → Nat → ℚ := fun _ _ => 0

/-- A trivial cut oracle for a 1-candidate population. -/
def cuts6 : Fin 1 → Nat := fun _ => 0

/-- A mutation oracle that never fires. -/
def mdec6 : Fin 1 → Pos 3 1 → Bool := fun _ _ => false

/-- A trivial slot-pick oracle. -/
def mpick6 : Fin 1 → Pos 3 1 → Fin 3 := fun _ p => p.1

/-- A trivial draw-stream oracle (2-slot, 1-room, 1 candidate). -/
def drawsW : Fin 1 → Nat → ℚ := fun _ _ => 0

/-- A trivial cut oracle. -/
def cutsW : Fin 1 → Nat := fun _ => 0

/-- A mutation oracle that never fires. -/
def mdecW : Fin 1 → Pos 2 1 → Bool := fun _ _ => false

/-- A trivial slot-pick oracle. -/
def mpickW : Fin 1 → Pos 2 1 → Fin 2 := fun _ p => p.1

/-- A constant scoring oracle. -/
def rateW : Grid 2 1 → ℚ := fun _ => 0

/-- A one-candidate population holding `gA21`. -/
def curW : Pop 1 2 1 := fun _ => gA21

/-! ## Infrastructure lemmas -/

/-- `injB` is the permutation invariant: a grid is injective with values
below `slots*rooms` iff every identifier below `slots*rooms` appears exactly
once. -/
lemma injB_iff {s m : Nat} (g : Grid s m) : injB g ↔ isPermGrid g := by
  constructor
  · rintro ⟨hinj, hb⟩ v hv
    have hcard : Fintype.card (Pos s m) = Fintype.card (Fin (s * m)) := by
      simp [Fintype.card_prod]
    have hfinj : Function.Injective (fun p : Pos s m => (⟨g p, hb p⟩ : Fin (s * m))) := by
      intro p q h
      exact hinj (congrArg Fin.val h)
    have hbij := (Fintype.bijective_iff_injective_and_card _).2 ⟨hfinj, hcard⟩
    obtain ⟨p, hp⟩ := hbij.2 ⟨v, hv⟩
    have hgp : g p = v := congrArg Fin.val hp
    exact ⟨p, hgp, fun q hq => hinj (hq.trans hgp.symm)⟩
  · intro h
    have hex : ∀ v : Fin (s * m), ∃ p : Pos s m, g p = v.val :=
      fun v => (h v.val v.isLt).exists
    choose φ hφ using hex
    have hφinj : Function.Injective φ := by
      intro v w hvw
      apply Fin.ext
      rw [← hφ v, ← hφ w, hvw]
    have hφbij := (Fintype.bijective_iff_injective_and_card φ).2
      ⟨hφinj, by simp [Fintype.card_prod]⟩
    have hbound : ∀ p, g p < s * m := by
      intro p
      obtain ⟨v, hv⟩ := hφbij.2 p
      rw [← hv, hφ v]
      exact v.isLt
    refine ⟨?_, hbound⟩
    intro p q hpq
    obtain ⟨r, _, hu⟩ := h (g p) (hbound p)
    exact (hu p rfl).trans (hu q hpq.symm).symm

/-- Fold preservation: an invariant preserved by every step is preserved by
the whole fold. -/
lemma foldl_preserves {σ α : Type} (P : σ → Prop) (f : σ → α → σ)
    (h : ∀ st x, P st → P (f st x)) :
    ∀ (l : List α) (st : σ), P st → P (l.foldl f st) := by
  intro l
  induction l with
  | nil => exact fun st hst => hst
  | cons a l ih => exact fun st hst => ih _ (h st a hst)

/-- A fold whose every step fixes the state leaves the state unchanged. -/
lemma foldl_fixed {σ α : Type} (f : σ → α → σ) (st : σ) :
    ∀ l : List α, (∀ x ∈ l, f st x = st) → l.foldl f st = st := by
  intro l
  induction l with
  | nil => intro _; rfl
  | cons a l ih =>
    intro h
    have ha := h a (List.mem_cons_self a l)
    simp only [List.foldl_cons, ha]
    exact ih (fun x hx => h x (List.mem_cons_of_mem a hx))

/-- `swapCells` is composition with the transposition of the two cells. -/
lemma swapCells_eq {s m : Nat} (g : Grid s m) (p q : Pos s m) :
    swapCells g p q = fun x => g (Equiv.swap p q x) := by
  funext x
  by_cases h1 : x = p <;> by_cases h2 : x = q <;> by_cases h3 : q = p <;>
    simp [swapCells, Equiv.swap_apply_def, h1, h2, h3]

/-- Swapping two cells preserves the permutation invariant. -/
lemma injB_swapCells {s m : Nat} {g : Grid s m} (p q : Pos s m)
    (h : injB g) : injB (swapCells g p q) := by
  obtain ⟨hinj, hb⟩ := h
  rw [swapCells_eq]
  exact ⟨fun a b hab => (Equiv.swap p q).injective (hinj hab),
    fun x => hb _⟩

/-- The ordering pass's outer body preserves the permutation invariant. -/
lemma injB_fixOrderingAt {s m : Nat} (nmini : Nat) (b : Nat → Nat → Bool)
    (g : Grid s m) (p1 : Pos s m) (hg : injB g) :
    injB (fixOrderingAt nmini b g p1) := by
  unfold fixOrderingAt
  split
  · exact hg
  · refine foldl_preserves injB _ ?_ _ _ hg
    intro st x hst
    dsimp only
    split
    · exact hst
    · split
      · exact injB_swapCells _ _ hst
      · exact hst

/-- The ordering pass preserves the permutation invariant. -/
lemma injB_fixOrdering {s m : Nat} (nmini : Nat) (b : Nat → Nat → Bool)
    (g : Grid s m) (hg : injB g) : injB (fixOrdering nmini b g) :=
  foldl_preserves injB _ (fun st x hst => injB_fixOrderingAt nmini b st x hst)
    _ _ hg

/-- The priority pass preserves the permutation invariant. -/
lemma injB_fixPriority {s m : Nat} (nmini : Nat) (hp : Nat → Nat → Bool)
    (g : Grid s m) (hg : injB g) : injB (fixPriority nmini hp g) := by
  refine foldl_preserves injB _ ?_ _ _ hg
  intro g0 sl hg0
  refine foldl_preserves injB _ ?_ _ _ hg0
  intro g1 i hg1
  dsimp only
  split
  · refine foldl_preserves injB _ ?_ _ _ hg1
    intro g2 j hg2
    unfold priorityInner
    split
    · unfold priorityStep
      split
      · exact hg2
      · split
        · exact injB_swapCells _ _ hg2
        · exact hg2
    · exact hg2
  · exact hg1

/-- The whole repair pass preserves the permutation invariant. -/
lemma injB_fix_schedules {s m : Nat} (nmini : Nat) (b hp : Nat → Nat → Bool)
    (g : Grid s m) (hg : injB g) : injB (fix_schedules nmini b hp g) :=
  injB_fixPriority nmini hp _ (injB_fixOrdering nmini b g hg)

/-- Mutation of one candidate preserves the permutation invariant. -/
lemma injB_mutate_schedule {s m : Nat} (dec : Pos s m → Bool)
    (pick : Pos s m → Fin s) (g : Grid s m) (hg : injB g) :
    injB (mutate_schedule dec pick g) := by
  refine foldl_preserves injB _ ?_ _ _ hg
  intro st p hst
  unfold mutateCell
  split
  · exact injB_swapCells _ _ hst
  · exact hst

/-! ### Initializer lemmas -/

/-- The row-major cell index is within the grid size. -/
lemma cellIndex_lt {s m : Nat} (p : Pos s m) :
    p.1.val * m + p.2.val < s * m :=
  calc p.1.val * m + p.2.val < p.1.val * m + m := Nat.add_lt_add_left p.2.isLt _
    _ = (p.1.val + 1) * m := by ring
    _ ≤ s * m := Nat.mul_le_mul_right m p.1.isLt

/-- The row-major cell index determines the cell. -/
lemma cellIndex_inj {s m : Nat} (p q : Pos s m)
    (h : p.1.val * m + p.2.val = q.1.val * m + q.2.val) : p = q := by
  have hm : 0 < m := p.2.pos
  have ediv : ∀ (x : Fin s) (y : Fin m), (x.val * m + y.val) / m = x.val := by
    intro x y
    rw [show x.val * m + y.val = y.val + m * x.val by ring,
      Nat.add_mul_div_left _ _ hm, Nat.div_eq_of_lt y.isLt, Nat.zero_add]
  have emod : ∀ (x : Fin s) (y : Fin m), (x.val * m + y.val) % m = y.val := by
    intro x y
    rw [show x.val * m + y.val = y.val + m * x.val by ring,
      Nat.add_mul_mod_self_left, Nat.mod_eq_of_lt y.isLt]
  have h1 : p.1 = q.1 := by
    apply Fin.ext
    rw [← ediv p.1 p.2, ← ediv q.1 q.2, h]
  have h2 : p.2 = q.2 := by
    apply Fin.ext
    rw [← emod p.1 p.2, ← emod q.1 q.2, h]
  exact Prod.ext h1 h2

/-- Initialization from any shuffle of `0, …, slots*rooms - 1` produces a
grid satisfying the permutation invariant. -/
lemma injB_initialize_schedule {s m : Nat} (numbers : List Nat)
    (h : numbers.Perm (List.range (s * m))) :
    injB (initialize_schedule s m numbers) := by
  have hlen : numbers.length = s * m := by
    rw [h.length_eq, List.length_range]
  have hnd : numbers.Nodup := h.nodup_iff.2 (List.nodup_range _)
  have hmem : ∀ x ∈ numbers, x < s * m := fun x hx =>
    List.mem_range.1 (h.mem_iff.1 hx)
  constructor
  · intro p q hpq
    have hip : p.1.val * m + p.2.val < numbers.length := by
      rw [hlen]; exact cellIndex_lt p
    have hiq : q.1.val * m + q.2.val < numbers.length := by
      rw [hlen]; exact cellIndex_lt q
    unfold initialize_schedule at hpq
    rw [List.getD_eq_getElem _ _ hip, List.getD_eq_getElem _ _ hiq] at hpq
    exact cellIndex_inj p q (hnd.getElem_inj_iff.1 hpq)
  · intro p
    have hip : p.1.val * m + p.2.val < numbers.length := by
      rw [hlen]; exact cellIndex_lt p
    unfold initialize_schedule
    rw [List.getD_eq_getElem _ _ hip]
    exact hmem _ (List.getElem_mem hip)

/-! ### Crossover: chase termination and permutation preservation -/

/-- Every position is listed in `allCells`. -/
lemma mem_allCells {s m : Nat} (p : Pos s m) : p ∈ allCells s m := by
  unfold allCells
  rw [List.mem_flatMap]
  refine ⟨p.1, List.mem_finRange _, ?_⟩
  rw [List.mem_map]
  exact ⟨p.2, List.mem_finRange _, rfl⟩

/-- A successful region lookup returns a position in the region holding the
sought value. -/
lemma findInRegion_some {s m : Nat} {mom : Grid s m} {e v : Nat}
    {q : Pos s m} (h : findInRegion mom e v = some q) :
    q.2.val < e ∧ mom q = v := by
  have h2 := List.find?_some h
  simp only [Bool.and_eq_true, decide_eq_true_eq, beq_iff_eq] at h2
  exact h2

/-- A failed region lookup means the value is nowhere in the region. -/
lemma findInRegion_none {s m : Nat} {mom : Grid s m} {e v : Nat}
    (h : findInRegion mom e v = none) :
    ∀ q : Pos s m, q.2.val < e → mom q ≠ v := by
  intro q hq hv
  have h2 := List.find?_eq_none.1 h q (mem_allCells q)
  simp only [Bool.and_eq_true, decide_eq_true_eq, beq_iff_eq, not_and] at h2
  exact h2 hq hv

/-- A successful chase step lands in the region, on the mom-cell holding the
dad's value. -/
lemma chaseStep_some {s m : Nat} {mom dad : Grid s m} {e : Nat}
    {p q : Pos s m} (h : chaseStep mom dad e p = some q) :
    q.2.val < e ∧ mom q = dad p :=
  findInRegion_some h

/-- The chase step is injective where defined (the dad is injective). -/
lemma chaseStep_inj {s m : Nat} {mom dad : Grid s m} {e : Nat}
    (hd : Function.Injective dad) {p p' q : Pos s m}
    (h : chaseStep mom dad e p = some q)
    (h' : chaseStep mom dad e p' = some q) : p = p' :=
  hd ((chaseStep_some h).2.symm.trans (chaseStep_some h').2)

/-- Iterated chase steps compose additively. -/
lemma chainN_add {s m : Nat} (mom dad : Grid s m) (e : Nat) :
    ∀ (a b : Nat) (p : Pos s m),
      chainN mom dad e (a + b) p =
        (chainN mom dad e a p).bind (chainN mom dad e b) := by
  intro a
  induction a with
  | zero => intro b p; simp [chainN, Nat.zero_add]
  | succ a ih =>
    intro b p
    rw [show a + 1 + b = (a + b) + 1 by omega]
    show (chaseStep mom dad e p).bind (chainN mom dad e (a + b)) = _
    cases h : chaseStep mom dad e p with
    | none => simp [chainN, h]
    | some q => simp only [chainN, h, Option.some_bind, ih]

/-- Peeling one chase step at the end of a chain. -/
lemma chainN_succ_right {s m : Nat} (mom dad : Grid s m) (e n : Nat)
    (p : Pos s m) :
    chainN mom dad e (n + 1) p =
      (chainN mom dad e n p).bind (chaseStep mom dad e) := by
  rw [chainN_add mom dad e n 1 p]
  cases chainN mom dad e n p with
  | none => rfl
  | some q =>
    show chainN mom dad e 1 q = chaseStep mom dad e q
    cases h : chaseStep mom dad e q <;> simp [chainN, h]

/-- After at least one successful chase step the position is in the copied
region. -/
lemma chainN_region {s m : Nat} {mom dad : Grid s m} {e n : Nat}
    {p q : Pos s m} (hn : 0 < n) (h : chainN mom dad e n p = some q) :
    q.2.val < e := by
  obtain ⟨n', rfl⟩ : ∃ n', n = n' + 1 := ⟨n - 1, by omega⟩
  rw [chainN_succ_right, Option.bind_eq_some] at h
  obtain ⟨a, -, ha⟩ := h
  exact (chaseStep_some ha).1

/-- If a longer chain succeeds then every shorter chain succeeds. -/
lemma chainN_isSome_mono {s m : Nat} {mom dad : Grid s m} {e : Nat}
    {a b : Nat} {p : Pos s m} (hab : a ≤ b)
    (h : (chainN mom dad e b p).isSome) :
    (chainN mom dad e a p).isSome := by
  obtain ⟨c, rfl⟩ := Nat.exists_eq_add_of_le hab
  rw [chainN_add] at h
  cases hx : chainN mom dad e a p with
  | none => rw [hx] at h; simp at h
  | some q => simp

/-- The chain started at a position outside the region never revisits a
position: two successful chains of different lengths end differently. -/
lemma chainN_no_revisit {s m : Nat} {mom dad : Grid s m} {e : Nat}
    (hd : Function.Injective dad) {p : Pos s m} (hp : e ≤ p.2.val) :
    ∀ (i d : Nat) (q : Pos s m), 0 < d →
      chainN mom dad e i p = some q →
      chainN mom dad e (i + d) p = some q → False := by
  intro i
  induction i with
  | zero =>
    intro d q hd' h0 hdq
    obtain rfl : p = q := Option.some.inj h0
    have := chainN_region (show 0 < 0 + d by omega) hdq
    omega
  | succ i ih =>
    intro d q hd' h1 h2
    rw [chainN_succ_right, Option.bind_eq_some] at h1
    obtain ⟨a, ha, hsa⟩ := h1
    rw [show i + 1 + d = (i + d) + 1 by omega,
      chainN_succ_right, Option.bind_eq_some] at h2
    obtain ⟨b, hb, hsb⟩ := h2
    obtain rfl : a = b := chaseStep_inj hd hsa hsb
    exact ih d a hd' ha hb

/-- The fueled `while(find(...))` loop fails exactly when the chain of that
length succeeds at every step. -/
lemma chase_eq_none_iff {s m : Nat} (mom dad : Grid s m) (e : Nat) :
    ∀ (f : Nat) (p : Pos s m),
      chase mom dad e f p = none ↔ (chainN mom dad e f p).isSome := by
  intro f
  induction f with
  | zero => intro p; simp [chase, chainN]
  | succ f ih =>
    intro p
    cases h : chaseStep mom dad e p with
    | none => simp [chase, h, chainN]
    | some q => simp only [chase, h, chainN, Option.some_bind]; exact ih q

/-- Chase termination: when the dad grid is injective, fuel `s*m + 1`
always suffices for a chase started outside the copied region. -/
lemma chase_isSome {s m : Nat} {mom dad : Grid s m} {e : Nat}
    (hd : Function.Injective dad) {p : Pos s m} (hp : e ≤ p.2.val) :
    (chase mom dad e (s * m + 1) p).isSome := by
  by_contra hns
  have hnone : chase mom dad e (s * m + 1) p = none := by
    cases h : chase mom dad e (s * m + 1) p with
    | none => rfl
    | some q => rw [h] at hns; simp at hns
  have hall : (chainN mom dad e (s * m + 1) p).isSome :=
    (chase_eq_none_iff mom dad e _ p).1 hnone
  have hsome : ∀ i : Fin (s * m + 1),
      (chainN mom dad e (i.val + 1) p).isSome := by
    intro i
    exact chainN_isSome_mono (by omega) hall
  have hmaps : ∀ i : Fin (s * m + 1),
      ((chainN mom dad e (i.val + 1) p).get (hsome i)) ∈
        Finset.univ.filter (fun q : Pos s m => q.2.val < e) := by
    intro i
    have hr := chainN_region (show 0 < i.val + 1 by omega)
      (Option.some_get (hsome i)).symm
    simp only [Finset.mem_filter, Finset.mem_univ, true_and]
    exact hr
  have hcard : (Finset.univ.filter (fun q : Pos s m => q.2.val < e)).card <
      (Finset.univ : Finset (Fin (s * m + 1))).card := by
    have h1 : (Finset.univ.filter (fun q : Pos s m => q.2.val < e)).card ≤
        Fintype.card (Pos s m) := by
      rw [← Finset.card_univ]
      exact Finset.card_le_univ _
    have h2 : Fintype.card (Pos s m) = s * m := by simp [Fintype.card_prod]
    have h3 : (Finset.univ : Finset (Fin (s * m + 1))).card = s * m + 1 := by
      simp
    omega
  obtain ⟨i, -, j, -, hij, heq⟩ :=
    Finset.exists_ne_map_eq_of_card_lt_of_maps_to hcard (fun i _ => hmaps i)
  have hchain : chainN mom dad e (i.val + 1) p =
      chainN mom dad e (j.val + 1) p := by
    rw [← Option.some_get (hsome i), ← Option.some_get (hsome j), heq]
  have hvij : i.val ≠ j.val := fun hv => hij (Fin.ext hv)
  rcases Nat.lt_or_ge i.val j.val with hlt | hge
  · refine chainN_no_revisit hd hp (i.val + 1) (j.val - i.val) _ (by omega)
      (Option.some_get (hsome i)).symm ?_
    rw [show i.val + 1 + (j.val - i.val) = j.val + 1 by omega, ← hchain]
    exact (Option.some_get (hsome i)).symm
  · have hlt' : j.val < i.val := by omega
    refine chainN_no_revisit hd hp (j.val + 1) (i.val - j.val) _ (by omega)
      (Option.some_get (hsome j)).symm ?_
    rw [show j.val + 1 + (i.val - j.val) = i.val + 1 by omega, hchain]
    exact (Option.some_get (hsome j)).symm

/-- A successful chase reaches its answer along a chain, and the answer's
dad-value is absent from the copied region. -/
lemma chase_spec {s m : Nat} {mom dad : Grid s m} {e : Nat} :
    ∀ (f : Nat) (p q : Pos s m), chase mom dad e f p = some q →
      ∃ k, k < f ∧ chainN mom dad e k p = some q ∧
        chaseStep mom dad e q = none := by
  intro f
  induction f with
  | zero => intro p q h; simp [chase] at h
  | succ f ih =>
    intro p q h
    cases hs : chaseStep mom dad e p with
    | none =>
      simp only [chase, hs] at h
      obtain rfl : p = q := Option.some.inj h
      exact ⟨0, by omega, rfl, hs⟩
    | some a =>
      simp only [chase, hs] at h
      obtain ⟨k, hk, hc, hend⟩ := ih a q h
      refine ⟨k + 1, by omega, ?_, hend⟩
      show (chaseStep mom dad e p).bind (chainN mom dad e k) = some q
      rw [hs]
      exact hc

/-- Two chains from outside the region that reach the same end started at
the same position. -/
lemma chain_end_unique {s m : Nat} {mom dad : Grid s m} {e : Nat}
    (hd : Function.Injective dad) {p p' : Pos s m}
    (hp : e ≤ p.2.val) (hp' : e ≤ p'.2.val) :
    ∀ (k k' : Nat) (q : Pos s m), chainN mom dad e k p = some q →
      chainN mom dad e k' p' = some q → p = p' := by
  intro k
  induction k with
  | zero =>
    intro k' q h h'
    obtain rfl : p = q := Option.some.inj h
    cases k' with
    | zero => exact (Option.some.inj h').symm
    | succ k'' =>
      have := chainN_region (show 0 < k'' + 1 by omega) h'
      omega
  | succ k ih =>
    intro k' q h h'
    have hreg : q.2.val < e := chainN_region (show 0 < k + 1 by omega) h
    rw [chainN_succ_right, Option.bind_eq_some] at h
    obtain ⟨a, ha, hsa⟩ := h
    cases k' with
    | zero =>
      obtain rfl : p' = q := Option.some.inj h'
      omega
    | succ k'' =>
      rw [chainN_succ_right, Option.bind_eq_some] at h'
      obtain ⟨b, hb, hsb⟩ := h'
      obtain rfl : a = b := chaseStep_inj hd hsa hsb
      exact ih k'' a ha hb

/-- For a cell outside the copied region, `breed` yields the dad's value at
the end of a chase chain whose value is absent from the region. -/
lemma breed_out_spec {s m : Nat} {mom dad : Grid s m} {e : Nat}
    (hd : Function.Injective dad) {p : Pos s m} (hout : ¬p.2.val < e) :
    ∃ q k, breed mom dad e p = dad q ∧ chainN mom dad e k p = some q ∧
      chaseStep mom dad e q = none := by
  have hsome := @chase_isSome s m mom dad e hd p (Nat.le_of_not_lt hout)
  obtain ⟨q, hq⟩ := Option.isSome_iff_exists.1 hsome
  obtain ⟨k, -, hc, hend⟩ := chase_spec _ _ _ hq
  refine ⟨q, k, ?_, hc, hend⟩
  unfold breed
  rw [if_neg hout, hq]

/-- For a cell inside the copied region, `breed` copies the mom's value. -/
lemma breed_in {s m : Nat} (mom dad : Grid s m) (e : Nat) {p : Pos s m}
    (h : p.2.val < e) : breed mom dad e p = mom p := by
  unfold breed
  rw [if_pos h]

/-- Crossover preserves the permutation invariant: the child of two
permutation grids is a permutation grid, for any cut point. -/
lemma injB_breed {s m : Nat} {mom dad : Grid s m} (e : Nat)
    (hm : injB mom) (hd : injB dad) : injB (breed mom dad e) := by
  obtain ⟨hmi, hmb⟩ := hm
  obtain ⟨hdi, hdb⟩ := hd
  constructor
  · intro p p' hpp
    by_cases h1 : p.2.val < e <;> by_cases h2 : p'.2.val < e
    · rw [breed_in mom dad e h1, breed_in mom dad e h2] at hpp
      exact hmi hpp
    · exfalso
      obtain ⟨q', k', hb', hc', hend'⟩ := @breed_out_spec s m mom dad e hdi p' h2
      rw [breed_in mom dad e h1, hb'] at hpp
      exact findInRegion_none hend' p h1 hpp
    · exfalso
      obtain ⟨q, k, hb, hc, hend⟩ := @breed_out_spec s m mom dad e hdi p h1
      rw [breed_in mom dad e h2, hb] at hpp
      exact findInRegion_none hend p' h2 hpp.symm
    · obtain ⟨q, k, hb, hc, hend⟩ := @breed_out_spec s m mom dad e hdi p h1
      obtain ⟨q', k', hb', hc', hend'⟩ := @breed_out_spec s m mom dad e hdi p' h2
      rw [hb, hb'] at hpp
      obtain rfl : q = q' := hdi hpp
      exact chain_end_unique hdi (Nat.le_of_not_lt h1) (Nat.le_of_not_lt h2)
        k k' q hc hc'
  · intro p
    by_cases h1 : p.2.val < e
    · rw [breed_in mom dad e h1]
      exact hmb p
    · obtain ⟨q, k, hb, -, -⟩ := @breed_out_spec s m mom dad e hdi p h1
      rw [hb]
      exact hdb q

/-! ### The repair pass on already-valid grids -/

/-- A grid satisfies the ordering constraint: no pair of occupied cells in
strictly increasing timeslots triggers `breaks_ordering` (the condition
under which the ordering pass swaps). -/
def orderingOK {s m : Nat} (nmini : Nat) (b : Nat → Nat → Bool)
    (g : Grid s m) : Prop :=
  ∀ p1 p2 : Pos s m, p1.1 < p2.1 → g p1 < nmini → g p2 < nmini →
    b (g p1) (g p2) = false

instance {s m : Nat} (nmini : Nat) (b : Nat → Nat → Bool) (g : Grid s m) :
    Decidable (orderingOK nmini b g) :=
  inferInstanceAs (Decidable (∀ p1 p2 : Pos s m, p1.1 < p2.1 →
    g p1 < nmini → g p2 < nmini → b (g p1) (g p2) = false))

/-- A grid satisfies the within-slot priority constraint: no adjacent pair
of rooms in a slot triggers the priority pass's swap condition. -/
def priorityOK {s m : Nat} (nmini : Nat) (hp : Nat → Nat → Bool)
    (g : Grid s m) : Prop :=
  ∀ (sl : Fin s) (j j' : Fin m), j.val + 1 = j'.val → g (sl, j') < nmini →
    ¬(nmini ≤ g (sl, j) ∨ hp (g (sl, j')) (g (sl, j)) = true)

instance {s m : Nat} (nmini : Nat) (hp : Nat → Nat → Bool) (g : Grid s m) :
    Decidable (priorityOK nmini hp g) :=
  inferInstanceAs (Decidable (∀ (sl : Fin s) (j j' : Fin m),
    j.val + 1 = j'.val → g (sl, j') < nmini →
    ¬(nmini ≤ g (sl, j) ∨ hp (g (sl, j')) (g (sl, j)) = true)))

/-- Cells listed by `laterCells sl1` are in strictly later timeslots. -/
lemma mem_laterCells {s m : Nat} {sl1 : Fin s} {p2 : Pos s m}
    (h : p2 ∈ laterCells sl1) : sl1 < p2.1 := by
  unfold laterCells at h
  rw [List.mem_flatMap] at h
  obtain ⟨sl2, hsl2, hmem⟩ := h
  rw [List.mem_filter] at hsl2
  rw [List.mem_map] at hmem
  obtain ⟨r2, -, rfl⟩ := hmem
  exact of_decide_eq_true hsl2.2

/-- On a grid already satisfying both constraints, the repair pass is the
identity. -/
lemma fix_schedules_noop {s m : Nat} (nmini : Nat) (b hp : Nat → Nat → Bool)
    (g : Grid s m) (h1 : orderingOK nmini b g) (h2 : priorityOK nmini hp g) :
    fix_schedules nmini b hp g = g := by
  have hord : fixOrdering nmini b g = g := by
    apply foldl_fixed
    intro p1 _
    unfold fixOrderingAt
    split
    · rfl
    · rename_i hlt1
      apply foldl_fixed
      intro p2 hp2
      dsimp only
      split
      · rfl
      · rename_i hlt2
        rw [h1 p1 p2 (mem_laterCells hp2) (Nat.lt_of_not_le hlt1)
          (Nat.lt_of_not_le hlt2)]
        rfl
  have hpri : fixPriority nmini hp g = g := by
    apply foldl_fixed
    intro sl _
    apply foldl_fixed
    intro i _
    dsimp only
    split
    · apply foldl_fixed
      intro j _
      unfold priorityInner
      split
      · rename_i hj
        unfold priorityStep
        split
        · rfl
        · rename_i hocc
          rw [if_neg (h2 sl j ⟨j.val + 1, hj.2⟩ rfl (Nat.lt_of_not_le hocc))]
      · rfl
    · rfl
  unfold fix_schedules
  rw [hord, hpri]

/-! ### Bubble sort correctness (`sort_on_ratings`)

All cell accesses go through `List.getD` with default `(0, 0)`, matching the
embedding of the sort itself. -/

lemma getD_mem {α : Type} (l : List α) (d : α) (k : Nat) (hk : k < l.length) :
    l.getD k d ∈ l := by
  rw [List.getD_eq_getElem _ _ hk]
  exact List.getElem_mem hk

lemma mem_iff_getD {α : Type} (l : List α) (d : α) (x : α) :
    x ∈ l ↔ ∃ k, k < l.length ∧ l.getD k d = x := by
  constructor
  · intro hx
    rw [List.mem_iff_getElem] at hx
    obtain ⟨k, hk, hkx⟩ := hx
    exact ⟨k, hk, by rw [List.getD_eq_getElem _ _ hk]; exact hkx⟩
  · rintro ⟨k, hk, rfl⟩
    exact getD_mem l d k hk

lemma length_swapAdj (st : List (Nat × ℚ)) (j : Nat) :
    (swapAdj st j).length = st.length := by
  simp [swapAdj]

lemma length_bubbleStep (st : List (Nat × ℚ)) (j : Nat) :
    (bubbleStep st j).length = st.length := by
  unfold bubbleStep
  split
  · exact length_swapAdj st j
  · rfl

lemma length_bubblePass (L : Nat) (st : List (Nat × ℚ)) :
    (bubblePass L st).length = st.length := by
  unfold bubblePass
  refine foldl_preserves (fun y : List (Nat × ℚ) => y.length = st.length) _ ?_ _ _ rfl
  intro x j hx
  rw [length_bubbleStep, hx]

lemma bubblePass_succ (L : Nat) (st : List (Nat × ℚ)) :
    bubblePass (L + 1) st = bubbleStep (bubblePass L st) L := by
  unfold bubblePass
  rw [List.range_succ, List.foldl_append]
  rfl

lemma swapAdj_getD_fst {st : List (Nat × ℚ)} {j : Nat}
    (hj : j + 1 < st.length) :
    (swapAdj st j).getD j (0, 0) = st.getD (j + 1) (0, 0) := by
  unfold swapAdj
  rw [List.getD_eq_getElem _ _ (by simp; omega),
    List.getElem_set, if_neg (by omega), List.getElem_set, if_pos rfl]

lemma swapAdj_getD_snd {st : List (Nat × ℚ)} {j : Nat}
    (hj : j + 1 < st.length) :
    (swapAdj st j).getD (j + 1) (0, 0) = st.getD j (0, 0) := by
  unfold swapAdj
  rw [List.getD_eq_getElem _ _ (by simp; omega), List.getElem_set,
    if_pos rfl, List.getD_eq_getElem _ _ (by omega)]

lemma swapAdj_getD_other {st : List (Nat × ℚ)} {j k : Nat}
    (h1 : k ≠ j) (h2 : k ≠ j + 1) :
    (swapAdj st j).getD k (0, 0) = st.getD k (0, 0) := by
  rcases Nat.lt_or_ge k st.length with hk | hk
  · unfold swapAdj
    rw [List.getD_eq_getElem _ _ (by simp; omega), List.getElem_set,
      if_neg (by omega), List.getElem_set, if_neg (by omega),
      List.getD_eq_getElem _ _ hk]
  · rw [List.getD_eq_default _ _ (by rw [length_swapAdj]; omega),
      List.getD_eq_default _ _ (by omega)]

lemma bubbleStep_getD_other {st : List (Nat × ℚ)} {j k : Nat}
    (h1 : k ≠ j) (h2 : k ≠ j + 1) :
    (bubbleStep st j).getD k (0, 0) = st.getD k (0, 0) := by
  unfold bubbleStep
  split
  · exact swapAdj_getD_other h1 h2
  · rfl

/-- Positions beyond the sweep's range are untouched by the inner pass. -/
lemma bubblePass_getD_high {k : Nat} :
    ∀ (L : Nat) (st : List (Nat × ℚ)), L < k →
      (bubblePass L st).getD k (0, 0) = st.getD k (0, 0) := by
  intro L
  induction L with
  | zero => intro st _; rfl
  | succ L ih =>
    intro st hLk
    rw [bubblePass_succ, bubbleStep_getD_other (by omega) (by omega),
      ih st (by omega)]

/-- After the inner pass of length `L`, position `L` holds a rating less
than or equal to every rating at positions `≤ L`. -/
lemma bubblePass_min_at :
    ∀ (L : Nat) (st : List (Nat × ℚ)), L < st.length →
      ∀ p, p ≤ L →
        ((bubblePass L st).getD L (0, 0)).2 ≤
          ((bubblePass L st).getD p (0, 0)).2 := by
  intro L
  induction L with
  | zero =>
    intro st hL p hp
    obtain rfl : p = 0 := by omega
    exact le_refl _
  | succ L ih =>
    intro st hL p hp
    have hLlen : L < st.length := by omega
    rw [bubblePass_succ]
    unfold bubbleStep
    split
    · rename_i hcmp
      rw [swapAdj_getD_snd (by rw [length_bubblePass]; omega)]
      rcases Nat.lt_or_ge p (L + 1) with hpL | hpL
      · rcases Nat.lt_or_ge p L with hpL' | hpL'
        · rw [swapAdj_getD_other (by omega) (by omega)]
          exact ih st hLlen p (by omega)
        · obtain rfl : p = L := by omega
          rw [swapAdj_getD_fst (by rw [length_bubblePass]; omega)]
          exact le_of_lt hcmp
      · obtain rfl : p = L + 1 := by omega
        rw [swapAdj_getD_snd (by rw [length_bubblePass]; omega)]
    · rename_i hcmp
      have hle : ((bubblePass L st).getD (L + 1) (0, 0)).2 ≤
          ((bubblePass L st).getD L (0, 0)).2 := le_of_not_lt hcmp
      rcases Nat.lt_or_ge p (L + 1) with hpL | hpL
      · exact le_trans hle (ih st hLlen p (by omega))
      · obtain rfl : p = L + 1 := by omega
        exact le_refl _

/-- Every value at a position `≤ L` after the inner pass was already present
at a position `≤ L` before it. -/
lemma bubblePass_prefix_from :
    ∀ (L : Nat) (st : List (Nat × ℚ)), L < st.length →
      ∀ p, p ≤ L →
        ∃ q, q ≤ L ∧
          (bubblePass L st).getD p (0, 0) = st.getD q (0, 0) := by
  intro L
  induction L with
  | zero =>
    intro st hL p hp
    obtain rfl : p = 0 := by omega
    exact ⟨0, le_refl 0, rfl⟩
  | succ L ih =>
    intro st hL p hp
    have hLlen : L < st.length := by omega
    have high : (bubblePass L st).getD (L + 1) (0, 0) =
        st.getD (L + 1) (0, 0) :=
      bubblePass_getD_high L st (by omega)
    rw [bubblePass_succ]
    unfold bubbleStep
    split
    · rcases Nat.lt_or_ge p L with hpL | hpL
      · rw [swapAdj_getD_other (by omega) (by omega)]
        obtain ⟨q, hq1, hq3⟩ := ih st hLlen p (by omega)
        exact ⟨q, by omega, hq3⟩
      · rcases Nat.lt_or_ge p (L + 1) with hpL' | hpL'
        · obtain rfl : p = L := by omega
          rw [swapAdj_getD_fst (by rw [length_bubblePass]; omega), high]
          exact ⟨p + 1, le_refl _, rfl⟩
        · obtain rfl : p = L + 1 := by omega
          rw [swapAdj_getD_snd (by rw [length_bubblePass]; omega)]
          obtain ⟨q, hq1, hq3⟩ := ih st hLlen L (le_refl L)
          exact ⟨q, by omega, hq3⟩
    · rcases Nat.lt_or_ge p (L + 1) with hpL | hpL
      · obtain ⟨q, hq1, hq3⟩ := ih st hLlen p (by omega)
        exact ⟨q, by omega, hq3⟩
      · obtain rfl : p = L + 1 := by omega
        rw [high]
        exact ⟨L + 1, le_refl _, rfl⟩

/-- The inner pass neither adds nor removes list elements. -/
lemma mem_bubblePass_iff :
    ∀ (L : Nat) (st : List (Nat × ℚ)), L < st.length →
      ∀ x : Nat × ℚ, (x ∈ bubblePass L st ↔ x ∈ st) := by
  intro L
  induction L with
  | zero => intro st hL x; exact Iff.rfl
  | succ L ih =>
    intro st hL x
    have hLlen : L < st.length := by omega
    have hlenP : (bubblePass L st).length = st.length := length_bubblePass L st
    have hswap : ∀ y : Nat × ℚ,
        y ∈ swapAdj (bubblePass L st) L ↔ y ∈ bubblePass L st := by
      intro y
      rw [mem_iff_getD _ (0, 0) y, mem_iff_getD _ (0, 0) y, length_swapAdj]
      constructor
      · rintro ⟨k, hk, hky⟩
        rcases Nat.lt_or_ge k L with hkL | hkL
        · rw [swapAdj_getD_other (by omega) (by omega)] at hky
          exact ⟨k, hk, hky⟩
        · rcases Nat.lt_or_ge k (L + 1) with hkL' | hkL'
          · obtain rfl : k = L := by omega
            rw [swapAdj_getD_fst (by rw [hlenP]; omega)] at hky
            exact ⟨k + 1, by rw [hlenP]; omega, hky⟩
          · rcases Nat.lt_or_ge k (L + 2) with hkL'' | hkL''
            · obtain rfl : k = L + 1 := by omega
              rw [swapAdj_getD_snd (by rw [hlenP]; omega)] at hky
              exact ⟨L, by omega, hky⟩
            · rw [swapAdj_getD_other (by omega) (by omega)] at hky
              exact ⟨k, hk, hky⟩
      · rintro ⟨k, hk, hky⟩
        rcases Nat.lt_or_ge k L with hkL | hkL
        · rw [← swapAdj_getD_other (j := L) (by omega) (by omega)] at hky
          exact ⟨k, hk, hky⟩
        · rcases Nat.lt_or_ge k (L + 1) with hkL' | hkL'
          · obtain rfl : k = L := by omega
            rw [← swapAdj_getD_snd (by rw [hlenP]; omega)] at hky
            exact ⟨k + 1, by omega, hky⟩
          · rcases Nat.lt_or_ge k (L + 2) with hkL'' | hkL''
            · obtain rfl : k = L + 1 := by omega
              rw [← swapAdj_getD_fst (by rw [hlenP]; omega)] at hky
              exact ⟨L, by omega, hky⟩
            · rw [← swapAdj_getD_other (j := L) (by omega) (by omega)] at hky
              exact ⟨k, hk, hky⟩
    rw [bubblePass_succ]
    unfold bubbleStep
    split
    · rw [hswap x, ih st hLlen x]
    · exact ih st hLlen x

lemma sort_on_ratings_fst (n : Nat) (ratings : List ℚ) :
    (sort_on_ratings n ratings).1 = sortFold n ratings n := rfl

lemma sortFold_succ (n : Nat) (ratings : List ℚ) (i : Nat) :
    sortFold n ratings (i + 1) =
      bubblePass (n - i - 1) (sortFold n ratings i) := by
  unfold sortFold
  rw [List.range_succ, List.foldl_append]
  rfl

lemma length_sortFold (n : Nat) (ratings : List ℚ) (hlen : ratings.length = n) :
    ∀ i, (sortFold n ratings i).length = n := by
  intro i
  induction i with
  | zero =>
    show ((List.range n).zip ratings).length = n
    rw [List.length_zip, List.length_range, hlen, Nat.min_self]
  | succ i ih => rw [sortFold_succ, length_bubblePass, ih]

/-- Invariant of the outer bubble loop: length is preserved, membership is
preserved, and the suffix of positions `≥ n - i` is dominated by (has
ratings at most those of) all earlier positions. -/
lemma sortFold_inv (n : Nat) (hn : 0 < n) (ratings : List ℚ)
    (hlen : ratings.length = n) :
    ∀ i, i ≤ n →
      (∀ x : Nat × ℚ, x ∈ sortFold n ratings i ↔
        x ∈ (List.range n).zip ratings) ∧
      (∀ k p, n - i ≤ k → p ≤ k → k < n →
        ((sortFold n ratings i).getD k (0, 0)).2 ≤
          ((sortFold n ratings i).getD p (0, 0)).2) := by
  intro i
  induction i with
  | zero =>
    intro _
    exact ⟨fun x => Iff.rfl, fun k p hk hp hkn => by omega⟩
  | succ i ih =>
    intro hin
    obtain ⟨ihmem, ihdom⟩ := ih (by omega)
    have hlenF : (sortFold n ratings i).length = n :=
      length_sortFold n ratings hlen i
    have hLlt : n - i - 1 < (sortFold n ratings i).length := by omega
    constructor
    · intro x
      rw [sortFold_succ, mem_bubblePass_iff _ _ hLlt x]
      exact ihmem x
    · intro k p hk hp hkn
      rw [sortFold_succ]
      rcases Nat.lt_or_ge (n - i - 1) k with hkL | hkL
      · -- position k is beyond the sweep: value unchanged
        rw [bubblePass_getD_high _ _ hkL]
        rcases Nat.lt_or_ge (n - i - 1) p with hpL | hpL
        · rw [bubblePass_getD_high _ _ hpL]
          exact ihdom k p (by omega) hp hkn
        · obtain ⟨q, hq1, hq3⟩ :=
            bubblePass_prefix_from (n - i - 1) _ hLlt p hpL
          rw [hq3]
          exact ihdom k q (by omega) (by omega) hkn
      · -- k = n - i - 1: the sweep put a minimum there
        obtain rfl : k = n - i - 1 := by omega
        exact bubblePass_min_at _ _ hLlt p hp

/-! ### The maximum of a rating list -/

lemma le_foldl_max (l : List ℚ) :
    ∀ a : ℚ, a ≤ l.foldl max a ∧ ∀ x ∈ l, x ≤ l.foldl max a := by
  induction l with
  | nil => intro a; exact ⟨le_refl a, by simp⟩
  | cons b l ih =>
    intro a
    constructor
    · exact le_trans (le_max_left a b) (ih (max a b)).1
    · intro x hx
      rcases List.mem_cons.1 hx with rfl | hx'
      · exact le_trans (le_max_right a x) (ih (max a x)).1
      · exact (ih (max a b)).2 x hx'

lemma foldl_max_mem (l : List ℚ) : ∀ a : ℚ, l.foldl max a ∈ a :: l := by
  induction l with
  | nil => intro a; simp
  | cons b l ih =>
    intro a
    simp only [List.foldl_cons]
    rcases List.mem_cons.1 (ih (max a b)) with h | h
    · rw [h]
      rcases max_choice a b with h1 | h1 <;> rw [h1]
      · exact List.mem_cons_self a _
      · exact List.mem_cons_of_mem a (List.mem_cons_self b l)
    · exact List.mem_cons_of_mem a (List.mem_cons_of_mem b h)

lemma maxQ_ge_mem (l : List ℚ) : ∀ x ∈ l, x ≤ maxQ l := by
  cases l with
  | nil => simp
  | cons r rs =>
    intro x hx
    rcases List.mem_cons.1 hx with rfl | hx'
    · exact (le_foldl_max rs x).1
    · exact (le_foldl_max rs r).2 x hx'

lemma maxQ_mem (l : List ℚ) (h : l ≠ []) : maxQ l ∈ l := by
  cases l with
  | nil => exact absurd rfl h
  | cons r rs => exact foldl_max_mem rs r

/-! ### The head of the sorted ranking is a maximum-rating index -/

lemma map_fst_getD (st : List (Nat × ℚ)) (h : 0 < st.length) :
    (st.map Prod.fst).getD 0 0 = (st.getD 0 (0, 0)).1 := by
  rw [List.getD_eq_getElem _ _ (by rw [List.length_map]; omega),
    List.getD_eq_getElem _ _ h, List.getElem_map]

/-- After `sort_on_ratings`, the head pair's index is a valid candidate
index, its stored rating is that candidate's rating, and that rating is the
maximum of all ratings. -/
lemma sort_head_spec (n : Nat) (hn : 0 < n) (ratings : List ℚ)
    (hlen : ratings.length = n) :
    ((sort_on_ratings n ratings).1.getD 0 (0, 0)).1 < n ∧
    ratings.getD ((sort_on_ratings n ratings).1.getD 0 (0, 0)).1 0 =
      ((sort_on_ratings n ratings).1.getD 0 (0, 0)).2 ∧
    ((sort_on_ratings n ratings).1.getD 0 (0, 0)).2 = maxQ ratings := by
  obtain ⟨hmem, hdom⟩ := sortFold_inv n hn ratings hlen n (le_refl n)
  have hlenF : (sortFold n ratings n).length = n :=
    length_sortFold n ratings hlen n
  have hlen0 : ((List.range n).zip ratings).length = n := by
    rw [List.length_zip, List.length_range, hlen, Nat.min_self]
  rw [sort_on_ratings_fst]
  -- identify the head pair as some (k, ratings[k])
  have hhead : (sortFold n ratings n).getD 0 (0, 0) ∈
      (List.range n).zip ratings :=
    (hmem _).1 (getD_mem _ _ 0 (by omega))
  rw [List.mem_iff_getElem] at hhead
  obtain ⟨k, hk, hkeq⟩ := hhead
  have hkn : k < n := by omega
  have hkr : k < ratings.length := by omega
  rw [List.getElem_zip, List.getElem_range] at hkeq
  have hfst : ((sortFold n ratings n).getD 0 (0, 0)).1 = k := by
    rw [← hkeq]
  have hsnd : ((sortFold n ratings n).getD 0 (0, 0)).2 = ratings[k] := by
    rw [← hkeq]
  refine ⟨by rw [hfst]; omega, ?_, ?_⟩
  · rw [hfst, hsnd, List.getD_eq_getElem _ _ hkr]
  · apply le_antisymm
    · rw [hsnd]
      exact maxQ_ge_mem ratings _ (List.getElem_mem hkr)
    · -- the maximum occurs somewhere; its pair is in the sorted list
      have hne : ratings ≠ [] := by
        intro habs
        rw [habs] at hlen
        simp at hlen
        omega
      have hmx := maxQ_mem ratings hne
      rw [List.mem_iff_getElem] at hmx
      obtain ⟨q, hq, hqeq⟩ := hmx
      have hpair : ((q, maxQ ratings) : Nat × ℚ) ∈ sortFold n ratings n := by
        rw [hmem]
        rw [List.mem_iff_getElem]
        refine ⟨q, by omega, ?_⟩
        rw [List.getElem_zip, List.getElem_range, hqeq]
      rw [mem_iff_getD _ (0, 0)] at hpair
      obtain ⟨w, hw, hweq⟩ := hpair
      have := hdom w 0 (by omega) (by omega) (by omega)
      rw [hweq] at this
      exact this

/-! ### Population rating lemmas -/

lemma length_popRatings {n s m : Nat} (rate : Grid s m → ℚ)
    (pop : Pop n s m) : (popRatings rate pop).length = n := by
  unfold popRatings
  rw [List.length_map, List.length_finRange]

lemma popRatings_getD {n s m : Nat} (rate : Grid s m → ℚ) (pop : Pop n s m)
    (k : Nat) (hk : k < n) :
    (popRatings rate pop).getD k 0 = rate (pop ⟨k, hk⟩) := by
  unfold popRatings
  rw [List.getD_eq_getElem _ _ (by rw [List.length_map, List.length_finRange]; omega),
    List.getElem_map, List.getElem_finRange]
  rfl

lemma rate_mem_popRatings {n s m : Nat} (rate : Grid s m → ℚ)
    (pop : Pop n s m) (i : Fin n) :
    rate (pop i) ∈ popRatings rate pop :=
  List.mem_map.2 ⟨i, List.mem_finRange i, rfl⟩

lemma le_bestRating {n s m : Nat} (rate : Grid s m → ℚ) (pop : Pop n s m)
    (i : Fin n) : rate (pop i) ≤ bestRating rate pop :=
  maxQ_ge_mem _ _ (rate_mem_popRatings rate pop i)

/-! ### Degenerate selection: equal ratings give all-zero weights -/

lemma foldl_min_replicate (c : ℚ) :
    ∀ (k : Nat) (a : ℚ),
      (List.replicate k c).foldl min a = if k = 0 then a else min a c := by
  intro k
  induction k with
  | zero => intro a; rfl
  | succ k ih =>
    intro a
    rw [List.replicate_succ, List.foldl_cons, ih (min a c)]
    rcases Nat.eq_zero_or_pos k with rfl | hk
    · simp
    · rw [if_neg (by omega), if_neg (by omega), min_assoc, min_self]

/-- With all ratings equal, every weight computed by `compute_weights` is
zero. -/
lemma compute_weights_replicate_zero {k : Nat} {c : ℚ} :
    ∀ w ∈ compute_weights (List.replicate k c), w = 0 := by
  intro w hw
  unfold compute_weights at hw
  simp only [List.mem_map] at hw
  obtain ⟨x, hx, rfl⟩ := hw
  obtain rfl : x = c := List.eq_of_mem_replicate hx
  cases k with
  | zero => simp at hx
  | succ k =>
    have hh : (List.replicate (k + 1) x).headD 0 = x := by
      rw [List.replicate_succ]
      rfl
    rw [hh, foldl_min_replicate, if_neg (by omega), min_self, sub_self]

/-- With all-zero weights and a nonnegative draw, the accumulation loop of
`get_parent` never fires and the function returns `unsigned(-1)`. -/
lemma getParentAux_zero {r : ℚ} (hr : 0 ≤ r) :
    ∀ ws : List ℚ, (∀ w ∈ ws, w = 0) →
      ∀ sc, getParentAux r ws 0 sc = 2 ^ 32 - 1 := by
  intro ws
  induction ws with
  | nil => intro _ sc; rfl
  | cons w ws ih =>
    intro hz sc
    have hw : w = 0 := hz w (List.mem_cons_self w ws)
    show (if r < 0 + w then sc else getParentAux r ws (0 + w) (sc + 1)) =
      2 ^ 32 - 1
    rw [hw, add_zero, if_neg (not_lt.2 hr)]
    exact ih (fun x hx => hz x (List.mem_cons_of_mem w hx)) (sc + 1)

lemma get_parent_zero {ws : List ℚ} (hz : ∀ w ∈ ws, w = 0) {r : ℚ}
    (hr : 0 ≤ r) : get_parent ws r = 2 ^ 32 - 1 :=
  getParentAux_zero hr ws hz 0

/-- With all-zero weights and nonnegative draws, the distinct-parent redraw
loop started from `pid1 = unsigned(-1)` never exits, for any fuel. -/
lemma redrawLoop_zero {ws : List ℚ} (hz : ∀ w ∈ ws, w = 0)
    {draws : Nat → ℚ} (hd : ∀ k, 0 ≤ draws k) :
    ∀ fuel k, redrawLoop ws draws (2 ^ 32 - 1) k fuel = none := by
  intro fuel
  induction fuel with
  | zero => intro k; rfl
  | succ fuel ih =>
    intro k
    show (if get_parent ws (draws k) = 2 ^ 32 - 1 then
        redrawLoop ws draws (2 ^ 32 - 1) (k + 1) fuel
      else some (get_parent ws (draws k))) = none
    rw [get_parent_zero hz (hd k), if_pos rfl]
    exact ih (k + 1)

/-! ### Breeding and mutation at the population level -/

/-- A successful `breed_population` copies the ranked elite candidates
verbatim into the leading slots of the next generation. -/
lemma breed_population_elite {n s m : Nat} {eliteSize : Nat}
    {weights : List ℚ} {bi : List Nat} {draws : Fin n → Nat → ℚ}
    {cuts : Fin n → Nat} {fuel : Nat} {cur next : Pop n s m}
    (h : breed_population eliteSize weights bi draws cuts fuel cur =
      some next) :
    ∀ i : Fin n, i.val < eliteSize →
      next i = cur ⟨bi.getD i.val 0 % n, Nat.mod_lt _ i.pos⟩ := by
  intro i hi
  unfold breed_population at h
  split at h
  · have hf := Option.some.inj h
    rw [← hf]
    dsimp only
    rw [if_pos hi]
  · exact absurd h (by simp)

/-- Mutation never touches candidate 0. -/
lemma mutate_population_zero {n s m : Nat} (mdec : Fin n → Pos s m → Bool)
    (mpick : Fin n → Pos s m → Fin s) (pop : Pop n s m) (h0 : 0 < n) :
    mutate_population mdec mpick pop ⟨0, h0⟩ = pop ⟨0, h0⟩ := by
  unfold mutate_population
  rw [if_pos rfl]

/-- Decomposition of a successful generation step into its breeding result
and the mutate-then-fix of every candidate. -/
lemma generation_step_some {n s m : Nat} {nmini : Nat}
    {b hp : Nat → Nat → Bool} {rate : Grid s m → ℚ} {eliteSize : Nat}
    {draws : Fin n → Nat → ℚ} {cuts : Fin n → Nat} {fuel : Nat}
    {mdec : Fin n → Pos s m → Bool} {mpick : Fin n → Pos s m → Fin s}
    {cur final : Pop n s m}
    (h : generation_step nmini b hp rate eliteSize draws cuts fuel mdec
      mpick cur = some final) :
    ∃ next, breed_population eliteSize (compute_weights (popRatings rate cur))
        ((sort_on_ratings n (popRatings rate cur)).1.map Prod.fst)
        draws cuts fuel cur = some next ∧
      final = fun i =>
        fix_schedules nmini b hp (mutate_population mdec mpick next i) := by
  unfold generation_step at h
  rw [Option.map_eq_some'] at h
  obtain ⟨next, h1, h2⟩ := h
  exact ⟨next, h1, h2.symm⟩

/-- The champion slot holds a maximum-rating candidate. -/
lemma champion_rate {n s m : Nat} (hn : 0 < n) (rate : Grid s m → ℚ)
    (cur : Pop n s m) :
    rate (cur (champion_index hn rate cur)) = bestRating rate cur := by
  have hlen : (popRatings rate cur).length = n := length_popRatings rate cur
  obtain ⟨hk, hpair, hmax⟩ := sort_head_spec n hn (popRatings rate cur) hlen
  have hlenF : (sort_on_ratings n (popRatings rate cur)).1.length = n := by
    rw [sort_on_ratings_fst]
    exact length_sortFold n _ hlen n
  have hfst : ((sort_on_ratings n (popRatings rate cur)).1.map
      Prod.fst).getD 0 0 =
      ((sort_on_ratings n (popRatings rate cur)).1.getD 0 (0, 0)).1 :=
    map_fst_getD _ (by omega)
  have hidx : champion_index hn rate cur =
      ⟨((sort_on_ratings n (popRatings rate cur)).1.getD 0 (0, 0)).1,
        by omega⟩ := by
    apply Fin.ext
    show (_ % n) = _
    conv_lhs => rw [hfst]
    rw [Nat.mod_eq_of_lt hk]
  rw [hidx]
  have := popRatings_getD rate cur
    ((sort_on_ratings n (popRatings rate cur)).1.getD 0 (0, 0)).1 hk
  rw [← this, hpair, hmax]
  rfl

/-- An `Option` equals `some v` when it is `isSome` and its `getD` value is
`v` (used to check Option-valued computations on function payloads). -/
lemma option_eq_some_of_getD {α : Type} (x : Option α) (d v : α)
    (h1 : x.isSome = true) (h2 : x.getD d = v) : x = some v := by
  obtain ⟨a, rfl⟩ := Option.isSome_iff_exists.1 h1
  simpa using h2

/-! ## Claim theorems -/

/-- C1: for every candidate grid, after initialization, after the repair
pass, after crossover, and after mutation, every identifier in
`[0, slots*rooms)` appears in the grid exactly once (the grid is a
bijection between cells and identifiers). -/
theorem C1_permutation_invariant (s m nmini : Nat) (b hp : Nat → Nat → Bool) :
    (∀ numbers : List Nat, numbers.Perm (List.range (s * m)) →
      isPermGrid (initialize_schedule s m numbers)) ∧
    (∀ g : Grid s m, isPermGrid g → isPermGrid (fix_schedules nmini b hp g)) ∧
    (∀ (mom dad : Grid s m) (e : Nat), isPermGrid mom → isPermGrid dad →
      isPermGrid (breed mom dad e)) ∧
    (∀ (dec : Pos s m → Bool) (pick : Pos s m → Fin s) (g : Grid s m),
      isPermGrid g → isPermGrid (mutate_schedule dec pick g)) := by
  refine ⟨?_, ?_, ?_, ?_⟩
  · intro numbers h
    exact (injB_iff _).1 (injB_initialize_schedule numbers h)
  · intro g hg
    exact (injB_iff _).1 (injB_fix_schedules nmini b hp g ((injB_iff g).2 hg))
  · intro mom dad e hm hd
    exact (injB_iff _).1 (injB_breed e ((injB_iff mom).2 hm)
      ((injB_iff dad).2 hd))
  · intro dec pick g hg
    exact (injB_iff _).1 (injB_mutate_schedule dec pick g ((injB_iff g).2 hg))

/-- Witness for C1 on concrete 2×2 data. -/
theorem C1_permutation_invariant_witness :
    isPermGrid (initialize_schedule 2 2 [2, 0, 3, 1]) ∧
    isPermGrid (fix_schedules 2 bcyc bfalse gW22) ∧
    isPermGrid (breed gW22 gRev22 1) ∧
    isPermGrid (mutate_schedule decAll pickNext gW22) :=
  ⟨(C1_permutation_invariant 2 2 2 bcyc bfalse).1 _ (by decide),
   (C1_permutation_invariant 2 2 2 bcyc bfalse).2.1 _ (by decide),
   (C1_permutation_invariant 2 2 2 bcyc bfalse).2.2.1 gW22 gRev22 1
     (by decide) (by decide),
   (C1_permutation_invariant 2 2 2 bcyc bfalse).2.2.2 decAll pickNext _
     (by decide)⟩

/-- C2: for any two parent permutation grids and any cut point, the
duplicate-chasing chain of the crossover terminates (fuel `s*m + 1` always
suffices), and the child grid is a full permutation of
`[0, slots*rooms)`. -/
theorem C2_crossover_closure (s m : Nat) (mom dad : Grid s m) (e : Nat)
    (hm : isPermGrid mom) (hd : isPermGrid dad) :
    (∀ p : Pos s m, e ≤ p.2.val →
      (chase mom dad e (s * m + 1) p).isSome) ∧
    isPermGrid (breed mom dad e) := by
  have hm' := (injB_iff mom).2 hm
  have hd' := (injB_iff dad).2 hd
  exact ⟨fun p hp => chase_isSome hd'.1 hp,
    (injB_iff _).1 (injB_breed e hm' hd')⟩

/-- Witness for C2 on concrete 2×2 parents with cut 1. -/
theorem C2_crossover_closure_witness :
    (chase gW22 gRev22 1 (2 * 2 + 1) wpos).isSome ∧
    isPermGrid (breed gW22 gRev22 1) :=
  ⟨(C2_crossover_closure 2 2 gW22 gRev22 1 (by decide) (by decide)).1 wpos
    (by decide),
   (C2_crossover_closure 2 2 gW22 gRev22 1 (by decide) (by decide)).2⟩

/-- C3 (code bug): the source's "Normalize the weights" kernel discards the
quotient `weights_[i] / weight_sum`, so after `compute_weights` the weights
are the unnormalized `rating - min` values and do not sum to 1.  At ratings
`[0, 2]` the stored weights are `[0, 2]` with sum `2 ≠ 1`.  The selection
walk itself does select the first candidate whose running sum exceeds the
draw (`get_parent [0, 2] (1/2) = 1`). -/
theorem C3_weights_not_normalized :
    compute_weights [0, 2] = [0, 2] ∧
    (compute_weights [0, 2]).sum = 2 ∧
    (compute_weights [0, 2]).sum ≠ 1 ∧
    get_parent [0, 2] (1 / 2) = 1 := by
  norm_num [compute_weights, get_parent, getParentAux]

/-- C4 (code bug): `sort_on_ratings` ranks indices by descending rating
(`best_indices = [1, 0]` for ratings `[1, 3]`), but the value it
returns — recorded by `run_genetic` as the generation's best rating — is
`h_ratings[n-1]`, the minimum `1`, not the top candidate's `3` (ratings
`[1, 3]`). -/
theorem C4_sort_returns_minimum :
    (sort_on_ratings 2 [1, 3]).1.map Prod.fst = [1, 0] ∧
    (sort_on_ratings 2 [1, 3]).2 = 1 ∧
    (sort_on_ratings 2 [1, 3]).2 ≠ 3 := by decide

/-- C5 (code bug): when no candidate's running cumulative weight exceeds
the draw (here: all weights zero), `get_parent` returns `unsigned(-1)`,
i.e. `2^32 - 1`, which is not a valid candidate index for a population of
size 2 — there is no in-range fallback. -/
theorem C5_get_parent_returns_out_of_range :
    get_parent [0, 0] (1 / 2) = 2 ^ 32 - 1 ∧
    ¬get_parent [0, 0] (1 / 2) < 2 := by
  have h : get_parent [0, 0] (1 / 2) = 2 ^ 32 - 1 :=
    get_parent_zero (by norm_num) (by norm_num)
  refine ⟨h, ?_⟩
  rw [h]
  decide

/-- C6 (counterexample): the best rating can decrease across one generation
of the driver loop.  With one candidate, elite size 1, and the cyclic
ordering predicate, the champion is copied verbatim and skipped by
mutation, but the subsequent repair pass rewrites its grid from `[2,1,0]`
to `[0,2,1]`, and the scoring collaborator may rate the new grid lower
(1 < 2).  The driver's early-exit value is `≠ 1`, so the loop would
indeed continue into this generation. -/
theorem C6_best_rating_decreases :
    generation_step 3 bcyc bfalse rate6 1 draws6 cuts6 1 mdec6 mpick6 cur6 =
      some pop6 ∧
    bestRating rate6 pop6 < bestRating rate6 cur6 ∧
    (sort_on_ratings 1 (popRatings rate6 cur6)).2 ≠ 1 := by
  refine ⟨option_eq_some_of_getD _ (fun _ _ => 0) pop6 (by decide) (by decide),
    by decide, by decide⟩

/-- C6 (amended): across one generation step, the best rating is
non-decreasing provided the repair pass leaves the carried-forward champion
unchanged (and at least one elite slot exists).  Without that proviso the
repair pass may rewrite the champion and the best rating may drop. -/
theorem C6_monotone_with_stable_champion {n s m : Nat} (nmini : Nat)
    (b hp : Nat → Nat → Bool) (rate : Grid s m → ℚ) (eliteSize : Nat)
    (draws : Fin n → Nat → ℚ) (cuts : Fin n → Nat) (fuel : Nat)
    (mdec : Fin n → Pos s m → Bool) (mpick : Fin n → Pos s m → Fin s)
    (cur final : Pop n s m) (hn : 0 < n) (he : 0 < eliteSize)
    (hstep : generation_step nmini b hp rate eliteSize draws cuts fuel mdec
      mpick cur = some final)
    (hfix : fix_schedules nmini b hp (cur (champion_index hn rate cur)) =
      cur (champion_index hn rate cur)) :
    bestRating rate cur ≤ bestRating rate final := by
  obtain ⟨next, hb, hf⟩ := generation_step_some hstep
  have h0 : final ⟨0, hn⟩ = fix_schedules nmini b hp
      (mutate_population mdec mpick next ⟨0, hn⟩) := by rw [hf]
  rw [mutate_population_zero mdec mpick next hn] at h0
  have helite := breed_population_elite hb ⟨0, hn⟩ he
  have hchampeq : (⟨((sort_on_ratings n (popRatings rate cur)).1.map
      Prod.fst).getD (⟨0, hn⟩ : Fin n).val 0 % n,
      Nat.mod_lt _ (⟨0, hn⟩ : Fin n).pos⟩ : Fin n) =
      champion_index hn rate cur := by
    apply Fin.ext
    rfl
  rw [helite, hchampeq, hfix] at h0
  calc bestRating rate cur
      = rate (cur (champion_index hn rate cur)) :=
        (champion_rate hn rate cur).symm
    _ = rate (final ⟨0, hn⟩) := by rw [h0]
    _ ≤ bestRating rate final := le_bestRating rate final ⟨0, hn⟩

/-- Witness for the amended C6 on a one-candidate population where the
repair pass is a no-op. -/
theorem C6_monotone_with_stable_champion_witness :
    bestRating rateW curW ≤ bestRating rateW curW :=
  C6_monotone_with_stable_champion 2 bfalse bfalse rateW 1 drawsW cutsW 1
    mdecW mpickW curW curW (by decide) (by decide)
    (option_eq_some_of_getD _ (fun _ _ => 0) curW (by decide) (by decide))
    (by decide)

/-- C7 (counterexample): at the generation boundary (after mutation), the
next generation's candidate at elite rank 1 is not bit-identical to the
current generation's candidate at `best_indices[1]`: mutation skips only
candidate 0, so the elite copy in slot 1 can be mutated. -/
theorem C7_elite_slot_mutated :
    breed_population 2 (compute_weights (popRatings rate7 cur7))
      ((sort_on_ratings 2 (popRatings rate7 cur7)).1.map Prod.fst)
      draws7 cuts7 1 cur7 = some next7 ∧
    ((sort_on_ratings 2 (popRatings rate7 cur7)).1.map Prod.fst).getD 1 0
      = 0 ∧
    mutate_population mdec7 mpick7 next7 1 ≠ cur7 0 := by
  refine ⟨option_eq_some_of_getD _ (fun _ _ => 0) next7 (by decide) (by decide),
    by decide, by decide⟩

/-- C7 (amended): immediately after the breeding step, every elite slot
`i < eliteSize` holds a bit-identical copy of the current generation's
candidate at `best_indices[i]`, with its rating unchanged; after mutation
this is guaranteed only for slot 0, which mutation skips. -/
theorem C7_elitism_after_breeding {n s m : Nat} (eliteSize : Nat)
    (weights : List ℚ) (bi : List Nat) (draws : Fin n → Nat → ℚ)
    (cuts : Fin n → Nat) (fuel : Nat) (rate : Grid s m → ℚ)
    (mdec : Fin n → Pos s m → Bool) (mpick : Fin n → Pos s m → Fin s)
    (cur next : Pop n s m)
    (h : breed_population eliteSize weights bi draws cuts fuel cur =
      some next) :
    (∀ i : Fin n, i.val < eliteSize →
      next i = cur ⟨bi.getD i.val 0 % n, Nat.mod_lt _ i.pos⟩ ∧
      rate (next i) =
        rate (cur ⟨bi.getD i.val 0 % n, Nat.mod_lt _ i.pos⟩)) ∧
    ∀ h0 : 0 < n, mutate_population mdec mpick next ⟨0, h0⟩ =
      next ⟨0, h0⟩ := by
  constructor
  · intro i hi
    have he := breed_population_elite h i hi
    exact ⟨he, by rw [he]⟩
  · intro h0
    exact mutate_population_zero mdec mpick next h0

/-- Witness for the amended C7 on the concrete 2-candidate population. -/
theorem C7_elitism_after_breeding_witness :
    next7 0 = cur7 ⟨((sort_on_ratings 2 (popRatings rate7 cur7)).1.map
      Prod.fst).getD 0 0 % 2, by decide⟩ ∧
    mutate_population mdec7 mpick7 next7 ⟨0, by decide⟩ =
      next7 ⟨0, by decide⟩ := by
  have hb : breed_population 2 (compute_weights (popRatings rate7 cur7))
      ((sort_on_ratings 2 (popRatings rate7 cur7)).1.map Prod.fst)
      draws7 cuts7 1 cur7 = some next7 :=
    option_eq_some_of_getD _ (fun _ _ => 0) next7 (by decide) (by decide)
  have h := C7_elitism_after_breeding 2
    (compute_weights (popRatings rate7 cur7))
    ((sort_on_ratings 2 (popRatings rate7 cur7)).1.map Prod.fst)
    draws7 cuts7 1 rate7 mdec7 mpick7 cur7 next7 hb
  exact ⟨(h.1 ⟨0, by decide⟩ (by decide)).1, h.2 (by decide)⟩

/-- C8 (counterexample): the repair pass is not idempotent for an arbitrary
ordering predicate.  With the asymmetric 3-cycle predicate `bcyc` on a
3-slot, 1-room grid, one application maps `[0,1,2]` to `[2,1,0]`, a second
maps `[2,1,0]` to `[0,2,1]`. -/
theorem C8_fix_not_idempotent :
    fix_schedules 3 bcyc bfalse (fix_schedules 3 bcyc bfalse g012) ≠
      fix_schedules 3 bcyc bfalse g012 := by decide

/-- C8 (amended): on a grid that already satisfies both the ordering
constraint and the within-slot priority constraint, the repair pass is a
no-op, and hence idempotent there; idempotence on arbitrary grids does not
hold for an arbitrary ordering predicate. -/
theorem C8_fix_noop_on_valid {s m : Nat} (nmini : Nat)
    (b hp : Nat → Nat → Bool) (g : Grid s m)
    (h1 : orderingOK nmini b g) (h2 : priorityOK nmini hp g) :
    fix_schedules nmini b hp g = g ∧
    fix_schedules nmini b hp (fix_schedules nmini b hp g) =
      fix_schedules nmini b hp g := by
  have h := fix_schedules_noop nmini b hp g h1 h2
  exact ⟨h, by rw [h, h]⟩

/-- Witness for the amended C8: the pass fixes a constraint-respecting
grid. -/
theorem C8_fix_noop_on_valid_witness :
    fix_schedules 4 bfalse bfalse gW22 = gW22 :=
  (C8_fix_noop_on_valid 4 bfalse bfalse gW22 (by decide) (by decide)).1

/-- C9 (code bug): the crossover's cut is taken along the room dimension
(`extent(2)`), not the timeslot dimension.  With 2 slots, 3 rooms and cut
`c = 1`, the cell in timeslot 1, room 0 is copied from the mom (room
column 0 is the copied region), while the cell in timeslot 0, room 1 —
which the claim says is copied, being in timeslot column 0 — receives a
chased dad value `4 ≠ mom = 1`. -/
theorem C9_cut_is_room_dimension :
    breed mom23 dad23 1 ((1 : Fin 2), (0 : Fin 3)) =
      mom23 ((1 : Fin 2), (0 : Fin 3)) ∧
    breed mom23 dad23 1 ((0 : Fin 2), (1 : Fin 3)) = 4 ∧
    mom23 ((0 : Fin 2), (1 : Fin 3)) = 1 := by decide

/-- C10: whenever every candidate has the same rating, `compute_weights`
stores all-zero weights, `get_parent` never finds a candidate whose running
sum exceeds the (nonnegative) draw and returns `unsigned(-1) = 2^32 - 1`
on every call, and the `while(pid2 == pid1)` redraw loop of
`breed_population` never exits: the fueled loop returns `none` for every
fuel, so `breed_population` does not terminate. -/
theorem C10_zero_weight_selection_hangs (n : Nat) (c : ℚ)
    (draws : Nat → ℚ) (hd : ∀ k, 0 ≤ draws k) :
    (∀ w ∈ compute_weights (List.replicate n c), w = 0) ∧
    (∀ k, get_parent (compute_weights (List.replicate n c)) (draws k) =
      2 ^ 32 - 1) ∧
    (∀ k fuel, redrawLoop (compute_weights (List.replicate n c)) draws
      (2 ^ 32 - 1) k fuel = none) := by
  refine ⟨compute_weights_replicate_zero, ?_, ?_⟩
  · intro k
    exact get_parent_zero compute_weights_replicate_zero (hd k)
  · intro k fuel
    exact redrawLoop_zero compute_weights_replicate_zero hd fuel k

/-- Witness for C10 at population size 2, equal ratings `1/2`, draws
`1/3`. -/
theorem C10_zero_weight_selection_hangs_witness :
    get_parent (compute_weights (List.replicate 2 (1 / 2 : ℚ)))
      (constDraws 0) = 2 ^ 32 - 1 ∧
    redrawLoop (compute_weights (List.replicate 2 (1 / 2 : ℚ))) constDraws
      (2 ^ 32 - 1) 0 3 = none :=
  ⟨(C10_zero_weight_selection_hangs 2 (1 / 2) constDraws
      (fun _ => by norm_num [constDraws])).2.1 0,
   (C10_zero_weight_selection_hangs 2 (1 / 2) constDraws
      (fun _ => by norm_num [constDraws])).2.2 0 3⟩

end GenSched
